import Mathlib

/-
Verification of the RQ swear-counter script analyzer.

This file gives a shallow embedding of `scriptanalyzer.py` (the `ScriptAnalyzer`
class: `split_script`, `profanity_counter`, `create_profanity_string`) and proves
properties of the embedding.  Text is modelled as `List Char`; Python string
operations (`split`, `strip`, `rstrip`, `isupper`, `in`, `replace`, `startswith`,
`endswith`, `re.findall` on a word-boundary-anchored literal pattern, `re.split`)
are modelled by the functions below.  Machine details that cannot affect the
verified claims (Unicode case tables beyond ASCII, `tqdm`/`print` side effects)
are simplified in the usual shallow-embedding way and noted where they occur.
-/

namespace RQ

/-- Text is a list of characters (Python `str`). -/
abbrev Txt := List Char

/-- Whitespace characters recognised by Python `str.strip` (ASCII range). -/
def isWS (c : Char) : Bool :=
  c = ' ' || c = '\t' || c = '\n' || c = '\r' || c = '\x0b' || c = '\x0c'

/-- Python `str.lstrip()`. -/
def lstrip (t : Txt) : Txt := t.dropWhile isWS

/-- Python `str.rstrip()`. -/
def rstrip (t : Txt) : Txt := (t.reverse.dropWhile isWS).reverse

/-- Python `str.strip()`. -/
def strip (t : Txt) : Txt := lstrip (rstrip t)

/-- A character is cased (ASCII model): it is an upper- or lower-case letter. -/
def isCased (c : Char) : Bool := c.isUpper || c.isLower

/-- Python `str.isupper()`: at least one cased character and no lower-case one. -/
def pyIsUpper (t : Txt) : Bool := t.any isCased && t.all (fun c => !c.isLower)

/-- Python regex `\w` (ASCII model): letters, digits, underscore. -/
def isWordChar (c : Char) : Bool := c.isAlphanum || c = '_'

/-- Python substring test `pat in t`. -/
def containsSub (t pat : Txt) : Bool := t.tails.any (fun s => pat.isPrefixOf s)

/-- Python `t.startswith(c)` for a one-character argument. -/
def startsWithC (c : Char) (t : Txt) : Bool := t.head? = some c

/-- Python `t.endswith(c)` for a one-character argument. -/
def endsWithC (c : Char) (t : Txt) : Bool := t.getLast? = some c

/-- Worker for `splitOnSub`; the fuel argument only makes the recursion
structural (each step consumes at least one character, so `t.length + 1`
fuel is always enough; see `splitF_fuel`). -/
def splitF (sep : Txt) : Nat → Txt → Txt → List Txt
  | 0, acc, t => [acc.reverse ++ t]
  | _ + 1, acc, [] => [acc.reverse]
  | f + 1, acc, c :: rest =>
    if sep.isPrefixOf (c :: rest) then
      acc.reverse :: splitF sep f [] ((c :: rest).drop sep.length)
    else
      splitF sep f (c :: acc) rest

/-- Python `t.split(sep)` for a non-empty separator: leftmost, non-overlapping.
(Python raises on an empty separator; the code never passes one, and we return
`[t]` in that unreachable case to stay total.) -/
def splitOnSub (sep t : Txt) : List Txt :=
  if sep.isEmpty then [t] else splitF sep (t.length + 1) [] t

/-- Python `sep.join(l)`. -/
def joinSep (sep : Txt) : List Txt → Txt
  | [] => []
  | [x] => x
  | x :: y :: ys => x ++ sep ++ joinSep sep (y :: ys)

/-- Python `t.replace(pat, rep)`, via the identity
`t.replace(a, b) == b.join(t.split(a))`. -/
def pyReplace (pat rep t : Txt) : Txt :=
  joinSep rep (splitOnSub pat t)

end RQ

namespace RQ

/-! ## Script segmentation (`ScriptAnalyzer.split_script`) -/

/-- Section keys of `parsed_dict`: Python uses `str` keys plus possibly the
value `None` (the initial `last_speaker`), so a key is an `Option Txt`. -/
abbrev Key := Option Txt

/-- The parsed script: an insertion-ordered dictionary from section key to the
ordered list of text chunks (Python 3.7+ `dict` preserves insertion order). -/
abbrev ParsedDict := List (Key × List Txt)

def epKey : Key := some "episode_info".toList
def cwKey : Key := some "content_warnings".toList
def scKey : Key := some "scenes".toList
def acKey : Key := some "actions".toList

/-- `d[k].extend(vs)` when `k` is present (order of keys is preserved); when `k`
is absent this inserts `(k, vs)` at the end, matching the source's
`if speaker not in self.parsed_dict: ... else: ...append(...)` for speaker keys.
For the four fixed keys the absent branch is unreachable (they are initialized
up front). -/
def dictExtend (d : ParsedDict) (k : Key) (vs : List Txt) : ParsedDict :=
  match d with
  | [] => [(k, vs)]
  | (k', l) :: rest =>
    if k' = k then (k', l ++ vs) :: rest else (k', l) :: dictExtend rest k vs

/-- Python `d[k]` lookup. -/
def dictGet (d : ParsedDict) (k : Key) : Option (List Txt) :=
  (d.find? (fun p => p.1 = k)).map Prod.snd

/-- State threaded through the `split_script` loop. -/
structure SplitState where
  dict : ParsedDict
  lastSpeaker : Key
  beginningInfo : Bool
  contentWarnings : Bool
  endingInfo : Bool
deriving DecidableEq

/-- The initial `parsed_dict` of `split_script`. -/
def initDict : ParsedDict := [(epKey, []), (cwKey, []), (scKey, []), (acKey, [])]

/-- Initial loop state of `split_script`. -/
def initState : SplitState :=
  { dict := initDict, lastSpeaker := none,
    beginningInfo := true, contentWarnings := false, endingInfo := false }

/-- Action / scene / dialogue classification (the part of the `split_script`
loop body below the preamble/warnings/postamble gate). -/
def classifyChunk (st : SplitState) (chunk : Txt) : SplitState :=
  if startsWithC '[' chunk && endsWithC ']' chunk then
    -- action block: strip internal blank lines, split on ']', re-close each part
    let parts := (splitOnSub [']'] (pyReplace ['\n', '\n'] [] chunk)).dropLast
    { st with dict := dictExtend st.dict acKey (parts.map (fun p => p ++ [']'])) }
  else if (containsSub chunk ['-'] || containsSub chunk ['–']) && pyIsUpper chunk then
    -- scene description
    { st with dict := dictExtend st.dict scKey [pyReplace ['\n', '\n'] [] chunk] }
  else
    -- dialogue: an upper-case first segment is the speaker label
    let scl := splitOnSub ['\n', '\n'] chunk
    let firstSeg := scl.headD []
    let labeled := pyIsUpper firstSeg
    let speaker : Key :=
      if labeled then
        some (rstrip (firstSeg.takeWhile (fun c => isWordChar c || isWS c)))
      else st.lastSpeaker
    let remaining : Txt :=
      if labeled then joinSep [' '] scl.tail else chunk
    { st with dict := dictExtend st.dict speaker [remaining], lastSpeaker := speaker }

/-- One iteration of the `split_script` loop on a raw block of text. -/
def processChunk (pname : Txt) (st : SplitState) (block : Txt) : SplitState :=
  let chunk := strip block
  let ending := if containsSub chunk (pname ++ " is a podcast distributed by".toList)
                then true else st.endingInfo
  if st.beginningInfo || st.contentWarnings || ending then
    let bi := if containsSub chunk "Content Warnings".toList then false else st.beginningInfo
    let cw := if containsSub chunk "Content Warnings".toList then true else st.contentWarnings
    if (startsWithC '[' chunk && endsWithC ']' chunk) ||
        ((containsSub chunk ['-'] || containsSub chunk ['–']) && pyIsUpper chunk) then
      -- transition out of the content-warnings phase; block is re-examined below
      classifyChunk { st with beginningInfo := bi, contentWarnings := false,
                              endingInfo := ending } chunk
    else
      let sec : Key := if bi || ending then epKey else cwKey
      { st with dict := dictExtend st.dict sec (splitOnSub ['\n', '\n'] chunk),
                beginningInfo := bi, contentWarnings := cw, endingInfo := ending }
  else
    classifyChunk { st with endingInfo := ending } chunk

/-- `podcast_name = text_chunks[0].split('–')[0].rstrip()`. -/
def podcastName0 (block : Txt) : Txt := rstrip ((splitOnSub ['–'] block).headD [])

/-- The podcast name derived from the raw script. -/
def podcastName (raw : Txt) : Txt :=
  podcastName0 ((splitOnSub "\n\n\n\n".toList raw).headD [])

/-- `ScriptAnalyzer.split_script`: segment the raw text into `parsed_dict`. -/
def splitScript (raw : Txt) : ParsedDict :=
  let blocks := splitOnSub "\n\n\n\n".toList raw
  (blocks.foldl (processChunk (podcastName raw)) initState).dict

end RQ

namespace RQ

/-! ## Profanity scanning (`ScriptAnalyzer.profanity_counter`)

The scanner evaluates, for each lexicon word `w` and chunk,
`len(re.findall(r'\b{0}\b'.format(w), chunk, re.IGNORECASE))`.  Lexicon words
are treated as literal text (the source interpolates them unescaped; the
provided lexicon consists of plain words).  `\b` matches where exactly one of
the two neighbouring characters is a word character. -/

/-- Is an optional character a word character (absent = not). -/
def wordC : Option Char → Bool
  | none => false
  | some c => isWordChar c

/-- Lower-case a text (ASCII model of `re.IGNORECASE`). -/
def toLowerT (t : Txt) : Txt := t.map Char.toLower

/-- Does the pattern `\b w \b` match at the current position?  `prev` is the
character just before the position, `s` the remaining text.  Empty patterns are
rejected (the lexicon has no empty word). -/
def matchAt (w : Txt) (prev : Option Char) (s : Txt) : Bool :=
  !w.isEmpty &&
  (toLowerT w).isPrefixOf (toLowerT s) &&
  (wordC prev != wordC s.head?) &&
  (wordC (s.take w.length).getLast? != wordC (s.drop w.length).head?)

/-- Worker for `findallCount`: left-to-right, non-overlapping scan, as
`re.findall` performs.  Fuel makes the recursion structural; each step consumes
at least one character (`matchAt` forces `w ≠ []`), so `s.length + 1` fuel is
always enough. -/
def faF (w : Txt) : Nat → Option Char → Txt → Nat
  | 0, _, _ => 0
  | f + 1, prev, s =>
    if matchAt w prev s then
      1 + faF w f (s.take w.length).getLast? (s.drop w.length)
    else
      match s with
      | [] => 0
      | c :: rest => faF w f (some c) rest

/-- `len(re.findall(r'\b{0}\b'.format(w), chunk, re.IGNORECASE))`. -/
def findallCount (w chunk : Txt) : Nat := faF w (chunk.length + 1) none chunk

/-- The occurrence list a single chunk contributes: for each lexicon word in
order, `[word] * number_of_occurrences` (`cur_profane_words` in the source). -/
def scanChunk (censored : List Txt) (chunk : Txt) : List Txt :=
  censored.foldl (fun acc word => acc ++ List.replicate (findallCount word chunk) word) []

/-- Per-section entry of `profanity_dict`: flagged chunk indices, their
occurrence lists, and the section counter (`None` until the section is seen to
contain profanity; we keep the flattened occurrence list, from which the
`Counter` is the multiset of its elements). -/
structure SecRep where
  index : List Nat
  profaneWords : List (List Txt)
  profaneCounter : Option (List Txt)
deriving DecidableEq

/-- The freshly initialized per-section entry. -/
def emptyRep : SecRep := { index := [], profaneWords := [], profaneCounter := none }

/-- Scan one section: flagged chunks in order with their occurrence lists. -/
def chunkHits (lex : List Txt) (chunks : List Txt) : List (Nat × List Txt) :=
  (chunks.enum.map (fun p => (p.1, scanChunk lex p.2))).filter (fun p => !p.2.isEmpty)

/-- The `profanity_dict` entry a section ends up with after its inner loop. -/
def sectionRep (lex : List Txt) (chunks : List Txt) : SecRep :=
  let hits := chunkHits lex chunks
  { index := hits.map Prod.fst,
    profaneWords := hits.map Prod.snd,
    profaneCounter := if hits.isEmpty then none else some (hits.map Prod.snd).flatten }

/-- Membership of a section key in `ignore_keys` (a list of strings; the `None`
key is never in it). -/
def ignoreMem (k : Key) (ign : List Txt) : Bool :=
  match k with
  | none => false
  | some s => s ∈ ign

/-- State threaded through the outer loop of `profanity_counter`:
the per-section results (in `parsed_dict` key order), `all_profane_words`,
and `most_profane` (initially `[None, 0]`). -/
structure ScanState where
  reps : List (Key × SecRep)
  allWords : List Txt
  mostProfane : Key × Nat
deriving DecidableEq

/-- One outer-loop iteration of `profanity_counter` over a section. -/
def scanStep (lex : List Txt) (ign : List Txt) (st : ScanState) (sec : Key × List Txt) :
    ScanState :=
  if ignoreMem sec.1 ign then
    { st with reps := st.reps ++ [(sec.1, emptyRep)] }
  else
    let rep := sectionRep lex sec.2
    if rep.index.isEmpty then
      { st with reps := st.reps ++ [(sec.1, rep)] }
    else
      let flat := rep.profaneWords.flatten
      { reps := st.reps ++ [(sec.1, rep)],
        allWords := st.allWords ++ flat,
        mostProfane :=
          if st.mostProfane.2 < flat.length then (sec.1, flat.length) else st.mostProfane }

/-- The default `ignore_keys` (the four non-dialogue sections). -/
def defaultIgnore : List Txt :=
  ["episode_info".toList, "content_warnings".toList, "scenes".toList, "actions".toList]

/-- `ScriptAnalyzer.profanity_counter` (the scanning part: everything up to and
including the construction of `profanity_dict['overall']` and `most_profane`;
the report strings are modelled separately). -/
def profanityCounter (parsed : ParsedDict) (lex : List Txt) (ign : List Txt) : ScanState :=
  parsed.foldl (scanStep lex ign) { reps := [], allWords := [], mostProfane := (none, 0) }

end RQ

namespace RQ

/-! ## Report formatting (`ScriptAnalyzer.create_profanity_string`)

Modelled to the extent the claims need it: it reads `parsed_dict` and the scan
results and produces two strings, rebinding a local copy of each flagged chunk
while emphasising matches; it never writes back into `parsed_dict`.  Python's
`set(...)` iteration order is modelled as first-occurrence order (the real
order is hash-dependent; no claim depends on it). -/

def BOLD : Txt := "\x1b[1m".toList
def UNDERL : Txt := "\x1b[4m".toList
def ENDM : Txt := "\x1b[0m".toList

/-- Deduplicate keeping first occurrences (model of iterating a Python `set`
built from a list). -/
def dedupFirst (l : List Txt) : List Txt :=
  l.foldl (fun acc x => if x ∈ acc then acc else acc ++ [x]) []

/-- Worker for `findallList` (same scan as `faF` but collecting the matched
substrings in their original case, as `re.findall` with `(?i)` returns them). -/
def faListF (w : Txt) : Nat → Option Char → Txt → List Txt
  | 0, _, _ => []
  | f + 1, prev, s =>
    if matchAt w prev s then
      s.take w.length :: faListF w f (s.take w.length).getLast? (s.drop w.length)
    else
      match s with
      | [] => []
      | c :: rest => faListF w f (some c) rest

/-- `re.findall(r'(?i)\b{0}\b'.format(w), chunk)`: the matched instances. -/
def findallList (w chunk : Txt) : List Txt := faListF w (chunk.length + 1) none chunk

/-- Case-sensitive variant of `matchAt` (pattern `\b{0}\b` without `(?i)`). -/
def matchAtCS (w : Txt) (prev : Option Char) (s : Txt) : Bool :=
  !w.isEmpty &&
  w.isPrefixOf s &&
  (wordC prev != wordC s.head?) &&
  (wordC (s.take w.length).getLast? != wordC (s.drop w.length).head?)

/-- Worker for `reSubWB`. -/
def subF (w rep : Txt) : Nat → Option Char → Txt → Txt
  | 0, _, s => s
  | f + 1, prev, s =>
    if matchAtCS w prev s then
      rep ++ subF w rep f (s.take w.length).getLast? (s.drop w.length)
    else
      match s with
      | [] => []
      | c :: rest => c :: subF w rep f (some c) rest

/-- `re.compile(r'\b{0}\b'.format(w)).sub(rep, chunk)`. -/
def reSubWB (w rep chunk : Txt) : Txt := subF w rep (chunk.length + 1) none chunk

/-- The inner emphasis loop of `create_profanity_string`: for every distinct
profane word of the chunk, find its literally-occurring instances and wrap each
distinct instance in bold+underline markers.  Operates on (and returns) a local
copy of the chunk. -/
def emphasizeChunk (pwords : List Txt) (chunk0 : Txt) : Txt :=
  (dedupFirst pwords).foldl
    (fun ch w =>
      (dedupFirst (findallList w ch)).foldl
        (fun ch2 inst => reSubWB inst (BOLD ++ UNDERL ++ inst ++ ENDM) ch2) ch)
    chunk0

/-- Stable insertion into a count-descending list (ties keep earlier elements
first), modelling `Counter.most_common`'s stable sort. -/
def insertByCount (x : Txt × Nat) : List (Txt × Nat) → List (Txt × Nat)
  | [] => [x]
  | y :: ys => if y.2 < x.2 then x :: y :: ys else y :: insertByCount x ys

/-- `Counter(l).most_common()`. -/
def mostCommon (l : List Txt) : List (Txt × Nat) :=
  ((dedupFirst l).map (fun w => (w, l.count w))).foldr insertByCount []

/-- Decimal rendering of a count (`'%i'`). -/
def natToTxt (n : Nat) : Txt := (toString n).toList

/-- `' '.join('%s (%i),' % ... for most_common())[:-1]`. -/
def formatInstances (l : List Txt) : Txt :=
  (joinSep [' ']
    ((mostCommon l).map (fun p => p.1 ++ " (".toList ++ natToTxt p.2 ++ "),".toList))).dropLast

/-- `'%s' % key`: Python formats the `None` key as the text `"None"`.  (In the
source, `print_list.append(key)` would in fact pass `None` itself to
`'\n'.join`, which raises a `TypeError`; no claim depends on that corner and
the formatting model renders the key's text instead.) -/
def keyText : Key → Txt
  | none => "None".toList
  | some s => s

/-- The per-section sub-block of the report (empty for sections with no
flagged chunk). -/
def sectionBlock (parsed : ParsedDict) (kr : Key × SecRep) : List Txt :=
  if kr.2.index.isEmpty then []
  else
    let flat := kr.2.profaneCounter.getD []
    ["=====================".toList,
     keyText kr.1,
     "Overall count: ".toList ++ natToTxt flat.length,
     "Profane words (# of instances): ".toList ++ formatInstances flat,
     "Occurrences in script:".toList] ++
    ((kr.2.index.zip kr.2.profaneWords).map (fun p =>
      "-- ".toList ++ emphasizeChunk p.2 (((dictGet parsed kr.1).getD []).getD p.1 [])))

/-- `ScriptAnalyzer.create_profanity_string`: the emphasized and the plain
report strings.  `cleanedFile` is the basename of the script file (computed by
the orchestrator from the file path; external I/O). -/
def createProfanityString (cleanedFile : Txt) (parsed : ParsedDict) (st : ScanState) :
    Txt × Txt :=
  let header := "=====================\n".toList ++ cleanedFile
  if st.allWords.isEmpty then
    let s := joinSep ['\n']
      [header, "No profane words could be found in the inputted script.".toList]
    (s, s)
  else
    let base :=
      [header,
       "=====================\n=====================".toList,
       "Overall Profanity Statistics".toList,
       "Total number of swears: ".toList ++ natToTxt st.allWords.length,
       "Most profane (# of instances): ".toList ++ keyText st.mostProfane.1 ++
         " (".toList ++ natToTxt st.mostProfane.2 ++ [')'],
       "Overall count (# of instances): ".toList ++ formatInstances st.allWords,
       "=====================".toList]
    let secBlocks := st.reps.foldl (fun acc kr => acc ++ sectionBlock parsed kr) []
    let printString := joinSep ['\n'] (base ++ secBlocks)
    let saveString := pyReplace ENDM [] (pyReplace UNDERL [] (pyReplace BOLD [] printString))
    (printString, saveString)

/-- `profanity_counter` together with `create_profanity_string`: the whole
scanning-and-formatting pass.  The final component is `self.parsed_dict` as it
stands after the call: no statement of the pass assigns into it (chunks are
read out and emphasised on local copies), so it is returned as received. -/
def profanityCounterRun (cleanedFile : Txt) (parsed : ParsedDict) (lex ign : List Txt) :
    ScanState × (Txt × Txt) × ParsedDict :=
  let st := profanityCounter parsed lex ign
  let strs := createProfanityString cleanedFile parsed st
  (st, strs, parsed)

end RQ

namespace RQ

/-! ## Instrumented segmenter

`splitScriptT` runs the very same loop as `splitScript` but additionally
records, in document order, what each block contributed: the text chunks
appended to some section (`TItem.chunk`) and the consumed speaker-label
segments (`TItem.label`).  `processChunkT_fst` below proves that the state
component coincides with the plain embedding. -/

/-- A trace item: a chunk stored in some section, or a consumed speaker label. -/
inductive TItem
  | label : Txt → TItem
  | chunk : Txt → TItem
deriving DecidableEq

/-- The text carried by a trace item. -/
def itemText : TItem → Txt
  | .label t => t
  | .chunk t => t

/-- The chunk carried by a trace item, if it is one. -/
def chunkText : TItem → Option Txt
  | .label _ => none
  | .chunk t => some t

/-- Instrumented `classifyChunk`. -/
def classifyChunkT (st : SplitState) (chunk : Txt) : SplitState × List TItem :=
  if startsWithC '[' chunk && endsWithC ']' chunk then
    let parts := (splitOnSub [']'] (pyReplace ['\n', '\n'] [] chunk)).dropLast
    let vs := parts.map (fun p => p ++ [']'])
    ({ st with dict := dictExtend st.dict acKey vs }, vs.map TItem.chunk)
  else if (containsSub chunk ['-'] || containsSub chunk ['–']) && pyIsUpper chunk then
    let vs := [pyReplace ['\n', '\n'] [] chunk]
    ({ st with dict := dictExtend st.dict scKey vs }, vs.map TItem.chunk)
  else
    let scl := splitOnSub ['\n', '\n'] chunk
    let firstSeg := scl.headD []
    let labeled := pyIsUpper firstSeg
    let speaker : Key :=
      if labeled then
        some (rstrip (firstSeg.takeWhile (fun c => isWordChar c || isWS c)))
      else st.lastSpeaker
    let remaining : Txt :=
      if labeled then joinSep [' '] scl.tail else chunk
    ({ st with dict := dictExtend st.dict speaker [remaining], lastSpeaker := speaker },
     if labeled then [TItem.label firstSeg, TItem.chunk remaining]
     else [TItem.chunk remaining])

/-- Instrumented `processChunk`. -/
def processChunkT (pname : Txt) (st : SplitState) (block : Txt) : SplitState × List TItem :=
  let chunk := strip block
  let ending := if containsSub chunk (pname ++ " is a podcast distributed by".toList)
                then true else st.endingInfo
  if st.beginningInfo || st.contentWarnings || ending then
    let bi := if containsSub chunk "Content Warnings".toList then false else st.beginningInfo
    let cw := if containsSub chunk "Content Warnings".toList then true else st.contentWarnings
    if (startsWithC '[' chunk && endsWithC ']' chunk) ||
        ((containsSub chunk ['-'] || containsSub chunk ['–']) && pyIsUpper chunk) then
      classifyChunkT { st with beginningInfo := bi, contentWarnings := false,
                               endingInfo := ending } chunk
    else
      let sec : Key := if bi || ending then epKey else cwKey
      let vs := splitOnSub ['\n', '\n'] chunk
      ({ st with dict := dictExtend st.dict sec vs,
                 beginningInfo := bi, contentWarnings := cw, endingInfo := ending },
       vs.map TItem.chunk)
  else
    classifyChunkT { st with endingInfo := ending } chunk

/-- One instrumented fold step: thread the state, concatenate the trace. -/
def stepT (p : Txt) (acc : SplitState × List TItem) (b : Txt) : SplitState × List TItem :=
  ((processChunkT p acc.1 b).1, acc.2 ++ (processChunkT p acc.1 b).2)

/-- Instrumented `splitScript`: the final state and the document-ordered trace. -/
def splitScriptT (raw : Txt) : SplitState × List TItem :=
  (splitOnSub "\n\n\n\n".toList raw).foldl (stepT (podcastName raw)) (initState, [])

/-- All non-whitespace characters of a text, in order. -/
def nws (t : Txt) : Txt := t.filter (fun c => !isWS c)

/-- All chunks stored in a parsed dictionary (section order, then chunk order). -/
def dictChunks (d : ParsedDict) : List Txt := (d.map Prod.snd).flatten

/-- The four fixed section keys, in initialization order. -/
def fixedKeys : List Key := [epKey, cwKey, scKey, acKey]

/-- The scanned sections that contain profanity, with their total occurrence
counts, in scan order (exactly the sections whose `profane_counter` was set). -/
def sectionCounts (st : ScanState) : List (Key × Nat) :=
  st.reps.filterMap (fun p => p.2.profaneCounter.map (fun f => (p.1, f.length)))

/-- The largest total occurrence count among a list of section counts. -/
def maxCount (l : List (Key × Nat)) : Nat := (l.map Prod.snd).foldr max 0

end RQ

namespace RQ

/-! ## Helper lemmas -/

theorem dictExtend_map_fst (d : ParsedDict) (k : Key) (vs : List Txt) :
    ∃ ext, (dictExtend d k vs).map Prod.fst = d.map Prod.fst ++ ext := by
  induction d with
  | nil => exact ⟨[k], rfl⟩
  | cons hd tl ih =>
    obtain ⟨ext, hext⟩ := ih
    by_cases h : hd.1 = k
    · exact ⟨[], by simp [dictExtend, h]⟩
    · exact ⟨ext, by simp [dictExtend, h, hext]⟩

theorem classifyChunk_extend (st : SplitState) (chunk : Txt) :
    ∃ k vs, (classifyChunk st chunk).dict = dictExtend st.dict k vs := by
  unfold classifyChunk
  split
  · exact ⟨_, _, rfl⟩
  · split
    · exact ⟨_, _, rfl⟩
    · exact ⟨_, _, rfl⟩

theorem processChunk_extend (p : Txt) (st : SplitState) (b : Txt) :
    ∃ k vs, (processChunk p st b).dict = dictExtend st.dict k vs := by
  simp only [processChunk]
  repeat' split
  all_goals first
    | exact classifyChunk_extend _ _
    | exact ⟨_, _, rfl⟩

theorem prefix_keys_processChunk (p : Txt) (st : SplitState) (b : Txt) (ks : List Key)
    (h : ks <+: st.dict.map Prod.fst) :
    ks <+: ((processChunk p st b).dict.map Prod.fst) := by
  obtain ⟨k, vs, he⟩ := processChunk_extend p st b
  obtain ⟨ext, hm⟩ := dictExtend_map_fst st.dict k vs
  rw [he, hm]
  exact h.trans (List.prefix_append _ _)

theorem prefix_keys_foldl (p : Txt) :
    ∀ (blocks : List Txt) (st : SplitState),
      fixedKeys <+: st.dict.map Prod.fst →
      fixedKeys <+: ((blocks.foldl (processChunk p) st).dict.map Prod.fst) := by
  intro blocks
  induction blocks with
  | nil => exact fun st h => h
  | cons b t ih => exact fun st h => ih _ (prefix_keys_processChunk p st b _ h)

end RQ

namespace RQ

/-! ## Claim C5 -/

/-- C5, counterexample.  The claim states that segmentation fails with a
`MalformedScriptError` on empty input; in fact `split_script` has no failure
path at all (the embedding is total because the source raises nothing): the
empty input is segmented successfully, the whole of it (one empty chunk)
landing in `episode_info`. -/
theorem empty_input_segments_without_error :
    splitScript [] = [(epKey, [[]]), (cwKey, []), (scKey, []), (acKey, [])] := by decide

/-- C5, amended.  Segmentation never fails: for every raw text (the empty one
included) `split_script` returns a parsed dictionary that still begins with the
four fixed sections; the podcast-name heuristic always computes (falling back
to the whole first block when no en-dash is present). -/
theorem splitScript_total_fixed_sections (raw : Txt) :
    fixedKeys <+: (splitScript raw).map Prod.fst := by
  unfold splitScript
  exact prefix_keys_foldl _ _ initState (by decide)

/-! ## Claim C6 -/

theorem splitF_single_no_mem (c : Char) :
    ∀ (f : Nat) (acc t : Txt), t.length < f → c ∉ t →
      splitF [c] f acc t = [acc.reverse ++ t] := by
  intro f
  induction f with
  | zero => exact fun acc t h _ => absurd h (Nat.not_lt_zero _)
  | succ f ih =>
    intro acc t hlen hmem
    match t with
    | [] => simp [splitF]
    | x :: rest =>
      have hcx : ¬(c = x) := fun h => hmem (h ▸ List.mem_cons_self x rest)
      have hrest : c ∉ rest := fun h => hmem (List.mem_cons_of_mem x h)
      have hlen2 : rest.length < f := by simpa using Nat.lt_of_succ_lt_succ hlen
      simp only [splitF, List.isPrefixOf, List.isPrefixOf_nil_left, Bool.and_true,
        beq_iff_eq, hcx, if_false]
      rw [ih (x :: acc) rest hlen2 hrest]
      simp

theorem splitF_single_head (c : Char) :
    ∀ (p : Txt) (f : Nat) (acc q : Txt), (p ++ c :: q).length < f → c ∉ p →
      (splitF [c] f acc (p ++ c :: q)).headD [] = acc.reverse ++ p := by
  intro p
  induction p with
  | nil =>
    intro f acc q hlen _
    cases f with
    | zero => exact absurd hlen (Nat.not_lt_zero _)
    | succ f => simp [splitF, List.isPrefixOf]
  | cons a p ih =>
    intro f acc q hlen hmem
    have hca : ¬(c = a) := fun h => hmem (h ▸ List.mem_cons_self a p)
    have hp : c ∉ p := fun h => hmem (List.mem_cons_of_mem a h)
    cases f with
    | zero => exact absurd hlen (Nat.not_lt_zero _)
    | succ f =>
      have hlen2 : (p ++ c :: q).length < f := by
        simp only [List.cons_append, List.length_cons] at hlen
        omega
      have hbeq : [c].isPrefixOf (a :: (p ++ c :: q)) = false := by
        simp [List.isPrefixOf, hca]
      rw [List.cons_append]
      simp only [splitF, hbeq, Bool.false_eq_true, if_false]
      rw [ih f (a :: acc) q hlen2 hp]
      simp

/-- C6, counterexample.  The claim says the podcast name is the text of the
first block before "an en-dash or hyphen-like separator", in particular that a
plain hyphen separates; in fact `split_script` splits the first block on the
en-dash `'–'` (U+2013) only, so a first block `"My Podcast - Episode 1"` yields
the whole block as the name, not `"My Podcast"`. -/
theorem podcastName_plain_hyphen_not_separator :
    podcastName "My Podcast - Episode 1\n\n\n\nrest".toList = "My Podcast - Episode 1".toList ∧
    podcastName "My Podcast - Episode 1\n\n\n\nrest".toList ≠ "My Podcast".toList := by
  constructor
  · decide
  · decide

/-- C6, amended.  The podcast name is the text of the first block before the
first en-dash `'–'` (U+2013) — and only that character — trimmed of trailing
whitespace; when the first block contains no en-dash (a plain hyphen does not
count), the entire block, right-stripped, becomes the name. -/
theorem podcastName_en_dash_only :
    (∀ p q : Txt, '–' ∉ p → podcastName0 (p ++ '–' :: q) = rstrip p) ∧
    (∀ b : Txt, '–' ∉ b → podcastName0 b = rstrip b) := by
  constructor
  · intro p q hp
    unfold podcastName0 splitOnSub
    rw [if_neg (by simp)]
    have := splitF_single_head '–' p ((p ++ '–' :: q).length + 1) [] q (Nat.lt_succ_self _) hp
    rw [this]
    simp
  · intro b hb
    unfold podcastName0 splitOnSub
    rw [if_neg (by simp)]
    rw [splitF_single_no_mem '–' (b.length + 1) [] b (Nat.lt_succ_self _) hb]
    simp

/-- Witness for `podcastName_en_dash_only` at concrete inputs. -/
theorem podcastName_en_dash_only_witness :
    podcastName0 ("The Show ".toList ++ '–' :: " Ep".toList) = rstrip "The Show ".toList ∧
    podcastName0 "My Podcast - Episode 1".toList = rstrip "My Podcast - Episode 1".toList :=
  ⟨podcastName_en_dash_only.1 _ _ (by decide), podcastName_en_dash_only.2 _ (by decide)⟩

/-! ## Claim C7 -/

/-- C7, counterexample.  The claim states that a dialogue block arriving before
any speaker has been established surfaces an `UndefinedSpeakerError`; in fact
the source has no such error: here the block `"hello there"` follows the
content warnings (after a bracket action) with no speaker yet, and segmentation
silently creates a section keyed by the null (`None`) speaker. -/
theorem null_speaker_section_created_silently :
    dictGet (splitScript
        "Pod – X\n\n\n\nContent Warnings\n\n\n\n[a]\n\n\n\nhello there".toList) none =
      some ["hello there".toList] := by decide

/-- C7, amended.  When a dialogue block (not an action, not a scene, first
segment not upper-case) must be attributed before any speaker has been
established, segmentation silently files the block under the null (`None`)
speaker key and keeps the last speaker undefined; no error is surfaced. -/
theorem unlabeled_dialogue_files_under_null_speaker
    (st : SplitState) (chunk : Txt)
    (hsp : st.lastSpeaker = none)
    (h1 : (startsWithC '[' chunk && endsWithC ']' chunk) = false)
    (h2 : ((containsSub chunk ['-'] || containsSub chunk ['–']) && pyIsUpper chunk) = false)
    (h3 : pyIsUpper ((splitOnSub ['\n', '\n'] chunk).headD []) = false) :
    classifyChunk st chunk =
      { st with dict := dictExtend st.dict none [chunk], lastSpeaker := none } := by
  have h3x : pyIsUpper ((splitOnSub ['\n', '\n'] chunk).head?.getD []) = false := by
    simpa [List.headD_eq_head?_getD] using h3
  simp [classifyChunk, h1, h2, h3, h3x, hsp]

/-- Witness for `unlabeled_dialogue_files_under_null_speaker` at a concrete
state and chunk. -/
theorem unlabeled_dialogue_files_under_null_speaker_witness :
    classifyChunk initState "hello there".toList =
      { initState with dict := dictExtend initState.dict none ["hello there".toList],
                       lastSpeaker := none } :=
  unlabeled_dialogue_files_under_null_speaker initState _ rfl (by decide) (by decide)
    (by decide)

/-! ## Claim C8 -/

/-- C8.  A bracket action block `"[door creaks][phone rings]"` contributes
exactly two entries to `actions`, `"[door creaks]"` and `"[phone rings]"`, each
re-closed with its bracket — both for the classification step from any state,
and inside a complete segmentation run. -/
theorem bracket_action_block_two_entries :
    (∀ st : SplitState,
      classifyChunk st "[door creaks][phone rings]".toList =
        { st with dict := dictExtend st.dict acKey ("[door creaks]".toList :: ["[phone rings]".toList]) }) ∧
    dictGet (splitScript
        "Pod – X\n\n\n\nContent Warnings\n\n\n\n[door creaks][phone rings]".toList) acKey =
      some ["[door creaks]".toList, "[phone rings]".toList] := by
  constructor
  · intro st
    have h2 : ((splitOnSub [']']
          (pyReplace ['\n', '\n'] [] "[door creaks][phone rings]".toList)).dropLast).map
        (fun p => p ++ [']']) = ["[door creaks]".toList, "[phone rings]".toList] := by decide
    unfold classifyChunk
    rw [if_pos (by decide)]
    dsimp only
    rw [h2]
  · decide

/-! ## Claims C9 and C10 -/

/-- C10.  Scanning together with report formatting leaves the parsed script
unchanged: the dictionary after the whole pass is exactly the input one (the
emphasis substitution works on local copies of the chunks; no statement of the
pass writes into `parsed_dict`). -/
theorem scan_and_format_preserve_parsed_dict
    (f : Txt) (p : ParsedDict) (lex ign : List Txt) :
    (profanityCounterRun f p lex ign).2.2 = p := rfl

/-- C9.  Running the scanner a second time, on the parsed script as the first
run left it, with the same lexicon and ignore set, produces the identical
report (same per-section indices, occurrence lists and tallies, same overall
tally, same most-profane tracking). -/
theorem scanner_idempotent (f : Txt) (p : ParsedDict) (lex ign : List Txt) :
    (profanityCounterRun f ((profanityCounterRun f p lex ign).2.2) lex ign).1 =
      (profanityCounterRun f p lex ign).1 := rfl

/-! ## Claim C2 -/

theorem scanChunk_foldl_count (chunk w : Txt) :
    ∀ (lex : List Txt) (acc : List Txt),
      (lex.foldl (fun acc word => acc ++ List.replicate (findallCount word chunk) word)
          acc).count w
        = acc.count w + lex.count w * findallCount w chunk := by
  intro lex
  induction lex with
  | nil => simp
  | cons x t ih =>
    intro acc
    simp only [List.foldl_cons]
    rw [ih]
    rw [List.count_append, List.count_replicate, List.count_cons]
    by_cases h : x = w
    · subst h
      simp
      ring
    · simp [h, Ne.symm h]

theorem nodup_count_one (w : Txt) :
    ∀ (l : List Txt), l.Nodup → w ∈ l → l.count w = 1 := by
  intro l
  induction l with
  | nil => exact fun _ h => absurd h (List.not_mem_nil w)
  | cons x t ih =>
    intro hnd hw
    rw [List.count_cons]
    rcases List.mem_cons.mp hw with h | h
    · subst h
      rw [List.count_eq_zero.mpr (List.nodup_cons.mp hnd).1]
      simp
    · rw [ih (List.nodup_cons.mp hnd).2 h]
      have hne : ¬(x = w) := fun he => (List.nodup_cons.mp hnd).1 (he.symm ▸ h)
      simp [hne]

/-- C2.  For every chunk and lexicon word, the scanner counts whole-word,
case-insensitive, word-boundary-anchored matches: a word matching N times in a
chunk contributes exactly N entries for it in that chunk's occurrence list; in
particular `"dang"` matches once in `"DANG!"`, once in `"Dang."`, and not at
all in `"dangle"`. -/
theorem scanChunk_counts_boundary_matches :
    (∀ (lex : List Txt) (chunk w : Txt), lex.Nodup → w ∈ lex →
      (scanChunk lex chunk).count w = findallCount w chunk) ∧
    findallCount "dang".toList "DANG!".toList = 1 ∧
    findallCount "dang".toList "Dang.".toList = 1 ∧
    findallCount "dang".toList "dangle".toList = 0 := by
  refine ⟨fun lex chunk w hnd hw => ?_, by decide, by decide, by decide⟩
  unfold scanChunk
  rw [scanChunk_foldl_count]
  rw [nodup_count_one w lex hnd hw]
  simp

/-- Witness for `scanChunk_counts_boundary_matches` at a concrete lexicon and
chunk. -/
theorem scanChunk_counts_boundary_matches_witness :
    (scanChunk ["dang".toList, "damn".toList] "Dang, that DANG dangle. damn".toList).count
        "dang".toList
      = findallCount "dang".toList "Dang, that DANG dangle. damn".toList :=
  scanChunk_counts_boundary_matches.1 _ _ _ (by decide) (by decide)

/-! ## Claim C3 -/

theorem sectionRep_counter_none (lex chunks : List Txt)
    (h : (sectionRep lex chunks).index.isEmpty = true) :
    (sectionRep lex chunks).profaneCounter = none := by
  unfold sectionRep at h ⊢
  cases hh : chunkHits lex chunks <;> simp [hh] at h ⊢

theorem sectionRep_counter_some (lex chunks : List Txt)
    (h : (sectionRep lex chunks).index.isEmpty = false) :
    (sectionRep lex chunks).profaneCounter =
      some (sectionRep lex chunks).profaneWords.flatten := by
  unfold sectionRep at h ⊢
  cases hh : chunkHits lex chunks <;> simp [hh] at h ⊢

/-- The per-section tally contribution used to compare against `overall`. -/
theorem scanStep_tally_invariant (lex ign : List Txt) (w : Txt)
    (st : ScanState) (sec : Key × List Txt)
    (h : st.allWords.count w = (st.reps.map (fun p => (p.2.profaneCounter.getD []).count w)).sum) :
    (scanStep lex ign st sec).allWords.count w =
      ((scanStep lex ign st sec).reps.map
        (fun p => (p.2.profaneCounter.getD []).count w)).sum := by
  simp only [scanStep]
  split
  · simp [h, emptyRep]
  · split
    · rename_i hidx
      simp [h, sectionRep_counter_none lex sec.2 (by simpa using hidx)]
    · rename_i hidx
      have hs := sectionRep_counter_some lex sec.2 (by simpa using hidx)
      simp [hs, List.count_append, h]

/-- C3.  The `overall` tally equals the element-wise (word-by-word) sum of the
per-section tallies of all non-ignored sections: for every word, its count in
`all_profane_words` is the sum over the report's sections of its count in the
section's `profane_counter` (ignored sections and sections without profanity
carry no counter and contribute zero). -/
theorem overall_tally_eq_sum_section_tallies
    (parsed : ParsedDict) (lex ign : List Txt) (w : Txt) :
    (profanityCounter parsed lex ign).allWords.count w =
      ((profanityCounter parsed lex ign).reps.map
        (fun p => (p.2.profaneCounter.getD []).count w)).sum := by
  unfold profanityCounter
  have H : ∀ (l : List (Key × List Txt)) (st : ScanState),
      st.allWords.count w =
        (st.reps.map (fun p => (p.2.profaneCounter.getD []).count w)).sum →
      (l.foldl (scanStep lex ign) st).allWords.count w =
        ((l.foldl (scanStep lex ign) st).reps.map
          (fun p => (p.2.profaneCounter.getD []).count w)).sum := by
    intro l
    induction l with
    | nil => exact fun st h => h
    | cons s t ih => exact fun st h => ih _ (scanStep_tally_invariant lex ign w st s h)
  exact H parsed _ (by simp)

/-! ## Claim C4 -/

theorem maxCount_cons (p : Key × Nat) (l : List (Key × Nat)) :
    maxCount (p :: l) = max p.2 (maxCount l) := rfl

theorem maxCount_attained :
    ∀ l : List (Key × Nat), maxCount l = 0 ∨ ∃ p, p ∈ l ∧ p.2 = maxCount l := by
  intro l
  induction l with
  | nil => exact Or.inl rfl
  | cons x t ih =>
    rcases Nat.le_total x.2 (maxCount t) with h | h
    · rcases ih with h0 | ⟨p, hp, he⟩
      · left
        rw [maxCount_cons, h0]
        omega
      · exact Or.inr ⟨p, List.mem_cons_of_mem _ hp,
          by rw [maxCount_cons, Nat.max_eq_right h, he]⟩
    · exact Or.inr ⟨x, List.mem_cons_self _ _, by rw [maxCount_cons, Nat.max_eq_left h]⟩

/-- The incremental strict-greater update of `most_profane`, characterised:
from a running value `m`, the fold returns the first pair attaining the maximum
when that maximum beats `m`, and `m` itself otherwise. -/
theorem foldStrict_spec :
    ∀ (cl : List (Key × Nat)) (m : Key × Nat),
      cl.foldl (fun a p => if a.2 < p.2 then p else a) m =
        if m.2 < maxCount cl
        then (cl.find? (fun p => p.2 == maxCount cl)).getD m
        else m := by
  intro cl
  induction cl with
  | nil =>
    intro m
    simp [maxCount]
  | cons p t ih =>
    intro m
    rw [List.foldl_cons, ih]
    by_cases h1 : m.2 < p.2
    · rw [if_pos h1]
      by_cases h2 : p.2 < maxCount t
      · have hmax : maxCount (p :: t) = maxCount t := by
          rw [maxCount_cons, Nat.max_eq_right (Nat.le_of_lt h2)]
        rw [if_pos h2, hmax, if_pos (by omega)]
        have hpf : (p.2 == maxCount t) = false := by simp; omega
        rw [List.find?_cons_of_neg _ (by simp [hpf])]
        rcases maxCount_attained t with h0 | ⟨q, hq, he⟩
        · omega
        · have : (t.find? (fun r => r.2 == maxCount t)).isSome := by
            rw [List.find?_isSome]
            exact ⟨q, hq, by simp [he]⟩
          obtain ⟨v, hv⟩ := Option.isSome_iff_exists.mp this
          rw [hv]
          rfl
      · have hmax : maxCount (p :: t) = p.2 := by
          rw [maxCount_cons, Nat.max_eq_left (Nat.le_of_not_lt h2)]
        rw [if_neg h2, hmax, if_pos h1]
        rw [List.find?_cons_of_pos _ (by simp)]
        rfl
    · rw [if_neg h1]
      have hp2 : p.2 ≤ m.2 := Nat.le_of_not_lt h1
      by_cases h2 : m.2 < maxCount t
      · have hmax : maxCount (p :: t) = maxCount t := by
          rw [maxCount_cons, Nat.max_eq_right (by omega)]
        rw [if_pos h2, hmax, if_pos h2]
        have hpf : (p.2 == maxCount t) = false := by simp; omega
        rw [List.find?_cons_of_neg _ (by simp [hpf])]
      · have hout : ¬(m.2 < maxCount (p :: t)) := by
          rw [maxCount_cons]
          exact Nat.not_lt.mpr (Nat.max_le.mpr ⟨hp2, Nat.not_lt.mp h2⟩)
        rw [if_neg h2, if_neg hout]

theorem sectionRep_flat_pos (lex chunks : List Txt)
    (h : (sectionRep lex chunks).index.isEmpty = false) :
    0 < (sectionRep lex chunks).profaneWords.flatten.length := by
  unfold sectionRep at h ⊢
  cases hh : chunkHits lex chunks with
  | nil => simp [hh] at h
  | cons x hs =>
    have hx : x ∈ chunkHits lex chunks := hh ▸ List.mem_cons_self x hs
    have hxe : x.2.isEmpty = false := by
      unfold chunkHits at hx
      have := List.of_mem_filter hx
      simpa using this
    have : x.2 ≠ [] := fun he => by simp [he] at hxe
    simp [hh]
    cases hxx : x.2 with
    | nil => exact absurd hxx this
    | cons a b => simp [hxx]

/-- The `most_profane` fold of the scanner agrees with the strict fold over the
positive section counts, which are all positive. -/
theorem profanityCounter_most_inv (parsed : ParsedDict) (lex ign : List Txt) :
    (profanityCounter parsed lex ign).mostProfane =
      (sectionCounts (profanityCounter parsed lex ign)).foldl
        (fun a p => if a.2 < p.2 then p else a) (none, 0) ∧
    ∀ p ∈ sectionCounts (profanityCounter parsed lex ign), 0 < p.2 := by
  unfold profanityCounter
  have H : ∀ (l : List (Key × List Txt)) (st : ScanState),
      (st.mostProfane =
        (sectionCounts st).foldl (fun a p => if a.2 < p.2 then p else a) (none, 0) ∧
       ∀ p ∈ sectionCounts st, 0 < p.2) →
      ((l.foldl (scanStep lex ign) st).mostProfane =
        (sectionCounts (l.foldl (scanStep lex ign) st)).foldl
          (fun a p => if a.2 < p.2 then p else a) (none, 0) ∧
       ∀ p ∈ sectionCounts (l.foldl (scanStep lex ign) st), 0 < p.2) := by
    intro l
    induction l with
    | nil => exact fun st h => h
    | cons s t ih =>
      intro st h
      refine ih _ ?_
      simp only [scanStep]
      split
      · have hsec : sectionCounts { st with reps := st.reps ++ [(s.1, emptyRep)] } =
            sectionCounts st := by
          simp [sectionCounts, List.filterMap_append, emptyRep]
        exact ⟨by rw [hsec]; exact h.1, by rw [hsec]; exact h.2⟩
      · split
        · rename_i hidx
          have hn := sectionRep_counter_none lex s.2 (by simpa using hidx)
          have hsec : sectionCounts
              { st with reps := st.reps ++ [(s.1, sectionRep lex s.2)] } =
              sectionCounts st := by
            simp [sectionCounts, List.filterMap_append, hn]
          exact ⟨by rw [hsec]; exact h.1, by rw [hsec]; exact h.2⟩
        · rename_i hidx
          have hs := sectionRep_counter_some lex s.2 (by simpa using hidx)
          have hpos := sectionRep_flat_pos lex s.2 (by simpa using hidx)
          have hsec : sectionCounts
              { reps := st.reps ++ [(s.1, sectionRep lex s.2)],
                allWords := st.allWords ++ (sectionRep lex s.2).profaneWords.flatten,
                mostProfane :=
                  if st.mostProfane.2 < (sectionRep lex s.2).profaneWords.flatten.length
                  then (s.1, (sectionRep lex s.2).profaneWords.flatten.length)
                  else st.mostProfane } =
              sectionCounts st ++
                [(s.1, (sectionRep lex s.2).profaneWords.flatten.length)] := by
            simp [sectionCounts, List.filterMap_append, hs]
          constructor
          · rw [hsec, List.foldl_append, ← h.1]
            rfl
          · intro p hp
            rw [hsec] at hp
            rcases List.mem_append.mp hp with h2 | h2
            · exact h.2 p h2
            · have he2 : p = (s.1, (sectionRep lex s.2).profaneWords.flatten.length) := by
                simpa using h2
              rw [he2]
              exact hpos
  exact H parsed _ (by constructor <;> simp [sectionCounts])

/-- C4.  `most_profane` is updated only on a strictly greater section count, so
it ends as the first scanned section attaining the maximum count: its count
component is the maximum of the positive section counts, and its key component
is the key of the first section attaining that maximum (ties never replace the
earlier section; with no profane section at all it stays `(None, 0)`). -/
theorem most_profane_first_wins (parsed : ParsedDict) (lex ign : List Txt) :
    (profanityCounter parsed lex ign).mostProfane.2 =
      maxCount (sectionCounts (profanityCounter parsed lex ign)) ∧
    (profanityCounter parsed lex ign).mostProfane.1 =
      (((sectionCounts (profanityCounter parsed lex ign)).find?
          (fun p => p.2 == maxCount (sectionCounts (profanityCounter parsed lex ign)))).map
        Prod.fst).getD none := by
  obtain ⟨hfold, hpos⟩ := profanityCounter_most_inv parsed lex ign
  rw [hfold, foldStrict_spec]
  by_cases h : (0 : Nat) < maxCount (sectionCounts (profanityCounter parsed lex ign))
  · rw [if_pos h]
    rcases maxCount_attained (sectionCounts (profanityCounter parsed lex ign)) with h0 | ⟨q, hq, he⟩
    · omega
    · have : ((sectionCounts (profanityCounter parsed lex ign)).find?
          (fun p => p.2 == maxCount (sectionCounts (profanityCounter parsed lex ign)))).isSome := by
        rw [List.find?_isSome]
        exact ⟨q, hq, by simp [he]⟩
      obtain ⟨v, hv⟩ := Option.isSome_iff_exists.mp this
      have hvp := List.find?_some hv
      rw [hv]
      constructor
      · simpa using hvp
      · rfl
  · rw [if_neg h]
    have hmax : maxCount (sectionCounts (profanityCounter parsed lex ign)) = 0 := by omega
    have hnone : (sectionCounts (profanityCounter parsed lex ign)).find?
        (fun p => p.2 == maxCount (sectionCounts (profanityCounter parsed lex ign))) = none := by
      cases hv : (sectionCounts (profanityCounter parsed lex ign)).find?
          (fun p => p.2 == maxCount (sectionCounts (profanityCounter parsed lex ign))) with
      | none => rfl
      | some v =>
        have hvp := List.find?_some hv
        have hvm := List.mem_of_find?_eq_some hv
        have := hpos v hvm
        rw [hmax] at hvp
        simp at hvp
        omega
    rw [hnone]
    exact ⟨hmax.symm, rfl⟩

end RQ

namespace RQ

/-! ## Foundations for the reconstruction analysis (claim C1) -/

theorem splitF_ne_nil (sep : Txt) : ∀ (f : Nat) (acc t : Txt), splitF sep f acc t ≠ [] := by
  intro f
  induction f with
  | zero => intro acc t; simp [splitF]
  | succ f ih =>
    intro acc t
    match t with
    | [] => simp [splitF]
    | c :: rest =>
      simp only [splitF]
      split
      · simp
      · exact ih _ _

theorem joinSep_cons_of_ne_nil (sep x : Txt) {L : List Txt} (h : L ≠ []) :
    joinSep sep (x :: L) = x ++ sep ++ joinSep sep L := by
  match L with
  | [] => exact absurd rfl h
  | y :: ys => rfl

theorem joinSep_splitF (sep : Txt) (hsep : sep ≠ []) :
    ∀ (f : Nat) (acc t : Txt), t.length < f →
      joinSep sep (splitF sep f acc t) = acc.reverse ++ t := by
  intro f
  induction f with
  | zero => exact fun acc t h => absurd h (Nat.not_lt_zero _)
  | succ f ih =>
    intro acc t hlen
    match t with
    | [] => simp [splitF, joinSep]
    | c :: rest =>
      simp only [splitF]
      split
      · rename_i hp
        have hpre : sep <+: (c :: rest) := List.isPrefixOf_iff_prefix.mp hp
        obtain ⟨u, hu⟩ := hpre
        have hdrop : (c :: rest).drop sep.length = u := by
          rw [← hu, List.drop_left]
        rw [hdrop]
        have hul : u.length < f := by
          have h1 : sep.length + u.length = (c :: rest).length := by
            rw [← hu, List.length_append]
          have h2 : 1 ≤ sep.length := by
            cases sep with
            | nil => exact absurd rfl hsep
            | cons a b => simp
          simp only [List.length_cons] at h1 hlen
          omega
        rw [joinSep_cons_of_ne_nil sep _ (splitF_ne_nil sep f [] u)]
        rw [ih [] u hul]
        simp [← hu]
      · have hlen2 : rest.length < f := by
          simp only [List.length_cons] at hlen
          omega
        rw [ih (c :: acc) rest hlen2]
        simp

theorem splitOnSub_ne_nil (sep t : Txt) : splitOnSub sep t ≠ [] := by
  unfold splitOnSub
  split
  · simp
  · exact splitF_ne_nil _ _ _ _

theorem joinSep_splitOnSub (sep t : Txt) (hsep : sep ≠ []) :
    joinSep sep (splitOnSub sep t) = t := by
  unfold splitOnSub
  rw [if_neg (by simpa using hsep)]
  simpa using joinSep_splitF sep hsep (t.length + 1) [] t (Nat.lt_succ_self _)

theorem nws_append (a b : Txt) : nws (a ++ b) = nws a ++ nws b := List.filter_append _ _

theorem nws_eq_nil_of_ws {t : Txt} (h : ∀ c ∈ t, isWS c = true) : nws t = [] := by
  unfold nws
  rw [List.filter_eq_nil_iff]
  intro a ha
  simp [h a ha]

theorem nws_flatten (L : List Txt) : nws L.flatten = (L.map nws).flatten := by
  induction L with
  | nil => rfl
  | cons x xs ih => simp [List.flatten_cons, nws_append, ih]

theorem nws_joinSep_ws {sep : Txt} (hws : ∀ c ∈ sep, isWS c = true) :
    ∀ L : List Txt, nws (joinSep sep L) = (L.map nws).flatten := by
  intro L
  induction L with
  | nil => rfl
  | cons x xs ih =>
    cases xs with
    | nil => simp [joinSep]
    | cons y ys =>
      rw [joinSep, nws_append, nws_append, nws_eq_nil_of_ws hws, ih]
      simp

theorem nws_dropWhile (t : Txt) : nws (t.dropWhile isWS) = nws t := by
  induction t with
  | nil => rfl
  | cons c cs ih =>
    by_cases h : isWS c = true
    · simpa [List.dropWhile_cons, h, nws] using ih
    · simp [List.dropWhile_cons, h]

theorem nws_reverse (t : Txt) : nws t.reverse = (nws t).reverse := List.filter_reverse _ _

theorem nws_rstrip (t : Txt) : nws (rstrip t) = nws t := by
  unfold rstrip
  rw [nws_reverse, nws_dropWhile, nws_reverse, List.reverse_reverse]

theorem nws_strip (t : Txt) : nws (strip t) = nws t := by
  unfold strip lstrip
  rw [nws_dropWhile, nws_rstrip]

theorem joinSep_nil_eq_flatten (L : List Txt) : joinSep [] L = L.flatten := by
  induction L with
  | nil => rfl
  | cons x xs ih =>
    cases xs with
    | nil => simp [joinSep]
    | cons y ys =>
      rw [joinSep, ih]
      simp

theorem nws_pyReplace_ws {pat : Txt} (hws : ∀ c ∈ pat, isWS c = true) (hne : pat ≠ [])
    (t : Txt) : nws (pyReplace pat [] t) = nws t := by
  unfold pyReplace
  rw [joinSep_nil_eq_flatten, nws_flatten, ← nws_joinSep_ws hws, joinSep_splitOnSub pat t hne]

end RQ

namespace RQ

theorem joinSep_append_singleton (sep : Txt) :
    ∀ (L : List Txt) (x : Txt), L ≠ [] →
      joinSep sep (L ++ [x]) = joinSep sep L ++ sep ++ x := by
  intro L
  induction L with
  | nil => exact fun x h => absurd rfl h
  | cons a l ih =>
    intro x _
    cases l with
    | nil => rfl
    | cons b m =>
      have e1 : (a :: b :: m) ++ [x] = a :: b :: (m ++ [x]) := by simp
      have e2 : joinSep sep (a :: b :: (m ++ [x])) =
          a ++ sep ++ joinSep sep (b :: (m ++ [x])) := rfl
      have e3 : b :: (m ++ [x]) = (b :: m) ++ [x] := by simp
      have e4 : joinSep sep (a :: b :: m) = a ++ sep ++ joinSep sep (b :: m) := rfl
      rw [e1, e2, e3, ih x (by simp), e4]
      simp [List.append_assoc]

theorem getLast?_isSome_of_ne_nil {α : Type} {l : List α} (h : l ≠ []) :
    ∃ a, l.getLast? = some a := by
  cases l with
  | nil => exact absurd rfl h
  | cons x xs => exact ⟨(x :: xs).getLast (by simp), List.getLast?_eq_getLast _ _⟩

theorem pyReplace_ws_getLast {pat : Txt} (hpat : pat ≠ [])
    (hws : ∀ d ∈ pat, isWS d = true) (t : Txt) (c : Char) (hc : isWS c = false)
    (h : t.getLast? = some c) :
    (pyReplace pat [] t).getLast? = some c := by
  have hjoin : joinSep pat (splitOnSub pat t) = t := joinSep_splitOnSub pat t hpat
  obtain ⟨la, hla⟩ := getLast?_isSome_of_ne_nil (splitOnSub_ne_nil pat t)
  have hsplit : (splitOnSub pat t).dropLast ++ [la] = splitOnSub pat t :=
    List.dropLast_append_getLast? la (Option.mem_def.mpr hla)
  have hflat : pyReplace pat [] t = (splitOnSub pat t).dropLast.flatten ++ la := by
    unfold pyReplace
    rw [joinSep_nil_eq_flatten, ← hsplit]
    simp
  have hlalast : la.getLast? = some c := by
    by_cases hinit : (splitOnSub pat t).dropLast = []
    · -- the split is a single part: t itself
      have h1 : splitOnSub pat t = [la] := by rw [← hsplit, hinit]; rfl
      have ht : t = la := by rw [← hjoin, h1]; rfl
      rw [← ht]
      exact h
    · have ht : t = joinSep pat (splitOnSub pat t).dropLast ++ pat ++ la := by
        have h2 := joinSep_append_singleton pat (splitOnSub pat t).dropLast la hinit
        rw [hsplit] at h2
        rw [← h2, hjoin]
      rcases hlaeq : la with _ | ⟨d, ds⟩
      · -- la = [] would make t end in a whitespace character of pat
        rw [hlaeq] at ht
        have h2 : t.getLast? =
            pat.getLast?.or ((joinSep pat (splitOnSub pat t).dropLast).getLast?) := by
          conv_lhs => rw [ht]
          rw [List.append_nil, List.getLast?_append]
        obtain ⟨p, hpmem⟩ := getLast?_isSome_of_ne_nil (l := pat) hpat
        rw [h, hpmem, Option.or_some] at h2
        have hcp : c = p := Option.some.inj h2
        have hwp := hws p (List.mem_of_getLast?_eq_some hpmem)
        rw [hcp, hwp] at hc
        simp at hc
      · rw [← hlaeq]
        have hsome : la.getLast?.isSome := by rw [hlaeq]; simp
        rw [ht, List.getLast?_append] at h
        rcases hv : la.getLast? with _ | v
        · rw [hv] at hsome
          cases hsome
        · rw [hv, Option.or_some] at h
          exact h
  rw [hflat, List.getLast?_append, hlalast]
  rfl

theorem splitF_last_of_getLast (c : Char) :
    ∀ (f : Nat) (acc t : Txt), t.length < f → t.getLast? = some c →
      (splitF [c] f acc t).getLast? = some ([] : Txt) := by
  intro f
  induction f with
  | zero => exact fun acc t h _ => absurd h (Nat.not_lt_zero _)
  | succ f ih =>
    intro acc t hlen hlast
    match t with
    | [] => simp at hlast
    | c0 :: rest =>
      simp only [splitF]
      split
      · have hdrop : (c0 :: rest).drop ([c] : Txt).length = rest := by simp
        rw [hdrop]
        cases hr : rest with
        | nil =>
          cases f with
          | zero =>
            rw [hr] at hlen
            simp at hlen
          | succ f2 =>
            simp [splitF]
        | cons d ds =>
          have hlast2 : rest.getLast? = some c := by
            rw [hr]
            rw [hr, List.getLast?_cons_cons] at hlast
            exact hlast
          have hlen2 : rest.length < f := by
            simp only [List.length_cons] at hlen
            omega
          have hres := ih [] rest hlen2 hlast2
          rcases hsp : splitF [c] f [] rest with _ | ⟨z, zs⟩
          · exact absurd hsp (splitF_ne_nil _ _ _ _)
          · rw [hr] at hsp
            rw [hsp, List.getLast?_cons_cons]
            rw [hr, hsp] at hres
            exact hres
      · rename_i hp
        cases hr : rest with
        | nil =>
          rw [hr] at hlast
          simp at hlast
          exact absurd (by simp [List.isPrefixOf, hlast]) hp
        | cons d ds =>
          have hlast2 : rest.getLast? = some c := by
            rw [hr]
            rw [hr, List.getLast?_cons_cons] at hlast
            exact hlast
          have hlen2 : rest.length < f := by
            simp only [List.length_cons] at hlen
            omega
          have := ih (c0 :: acc) rest hlen2 hlast2
          rw [hr] at this
          exact this

theorem flatten_map_append_singleton (c : Char) :
    ∀ L : List Txt, (L.map (fun p => p ++ [c])).flatten = joinSep [c] (L ++ [[]]) := by
  intro L
  induction L with
  | nil => rfl
  | cons x xs ih =>
    cases xs with
    | nil => simp [joinSep]
    | cons y ys =>
      have step : joinSep [c] ((x :: y :: ys) ++ [[]]) =
          x ++ [c] ++ joinSep [c] ((y :: ys) ++ [[]]) := rfl
      rw [step, ← ih]
      simp [List.append_assoc]

theorem action_flatten_eq (r : Txt) (h : r.getLast? = some ']') :
    ((splitOnSub [']'] r).dropLast.map (fun p => p ++ [']'])).flatten = r := by
  have hlast : (splitOnSub [']'] r).getLast? = some ([] : Txt) := by
    unfold splitOnSub
    rw [if_neg (by simp)]
    exact splitF_last_of_getLast ']' (r.length + 1) [] r (Nat.lt_succ_self _) h
  have hsplit : (splitOnSub [']'] r).dropLast ++ [[]] = splitOnSub [']'] r :=
    List.dropLast_append_getLast? [] (Option.mem_def.mpr hlast)
  rw [flatten_map_append_singleton, hsplit, joinSep_splitOnSub _ _ (by simp)]

theorem filterMap_chunkText_map_chunk (l : List Txt) :
    (l.map TItem.chunk).filterMap chunkText = l := by
  induction l with
  | nil => rfl
  | cons x xs ih => simp [chunkText, ih]

theorem map_itemText_map_chunk (l : List Txt) :
    (l.map TItem.chunk).map itemText = l := by
  induction l with
  | nil => rfl
  | cons x xs ih => simp [itemText, ih]

end RQ

namespace RQ

/-! ## Agreement of the instrumented segmenter with the plain one -/

theorem classifyChunkT_fst (st : SplitState) (chunk : Txt) :
    (classifyChunkT st chunk).1 = classifyChunk st chunk := by
  unfold classifyChunkT classifyChunk
  split
  · rfl
  · split
    · rfl
    · rfl

theorem processChunkT_fst (p : Txt) (st : SplitState) (b : Txt) :
    (processChunkT p st b).1 = processChunk p st b := by
  simp only [processChunkT, processChunk]
  repeat' split
  all_goals first
    | exact classifyChunkT_fst _ _
    | rfl

/-! ## Per-block conservation and dictionary shape -/

theorem classifyChunkT_items_nws (st : SplitState) (chunk : Txt) :
    nws (((classifyChunkT st chunk).2.map itemText).flatten) = nws chunk := by
  simp only [classifyChunkT]
  split
  · -- action block
    rename_i hcond
    dsimp only
    have hend : chunk.getLast? = some ']' := by
      have h2 := (Bool.and_elim_right hcond)
      simpa [endsWithC] using h2
    have hrl : (pyReplace ['\n', '\n'] [] chunk).getLast? = some ']' :=
      pyReplace_ws_getLast (by simp) (by decide) chunk ']' (by decide) hend
    rw [map_itemText_map_chunk, action_flatten_eq _ hrl,
      nws_pyReplace_ws (by decide) (by simp) chunk]
  · split
    · -- scene block
      dsimp only
      simp only [List.map_cons, List.map_nil, List.flatten_cons, List.flatten_nil,
        List.append_nil, itemText]
      exact nws_pyReplace_ws (by decide) (by simp) chunk
    · -- dialogue block
      dsimp only
      by_cases hlab : pyIsUpper ((splitOnSub ['\n', '\n'] chunk).headD []) = true
      · rcases hscl : splitOnSub ['\n', '\n'] chunk with _ | ⟨hd, tl⟩
        · exact absurd hscl (splitOnSub_ne_nil _ _)
        · rw [hscl] at hlab
          simp only [List.headD_cons] at hlab
          simp only [List.headD_cons, List.tail_cons]
          rw [if_pos hlab, if_pos hlab]
          simp only [List.map_cons, List.map_nil, itemText, List.flatten_cons,
            List.flatten_nil, List.append_nil]
          rw [nws_append, nws_joinSep_ws (by decide)]
          have hch : nws chunk = ((hd :: tl).map nws).flatten := by
            conv_lhs => rw [← joinSep_splitOnSub ['\n', '\n'] chunk (by simp), hscl]
            exact nws_joinSep_ws (by decide) _
          rw [hch]
          simp
      · rw [if_neg hlab, if_neg hlab]
        simp [itemText]

theorem classifyChunkT_dict (st : SplitState) (chunk : Txt) :
    ∃ k, (classifyChunkT st chunk).1.dict =
      dictExtend st.dict k ((classifyChunkT st chunk).2.filterMap chunkText) := by
  simp only [classifyChunkT]
  split
  · exact ⟨acKey, by dsimp only; rw [filterMap_chunkText_map_chunk]⟩
  · split
    · exact ⟨scKey, by dsimp only; rw [filterMap_chunkText_map_chunk]⟩
    · refine ⟨if pyIsUpper ((splitOnSub ['\n', '\n'] chunk).headD []) = true then
          some (rstrip (((splitOnSub ['\n', '\n'] chunk).headD []).takeWhile
            (fun c => isWordChar c || isWS c)))
        else st.lastSpeaker, ?_⟩
      dsimp only
      by_cases hlab : pyIsUpper ((splitOnSub ['\n', '\n'] chunk).headD []) = true
      · rw [if_pos hlab, if_pos hlab, if_pos hlab]
        simp [chunkText]
      · rw [if_neg hlab, if_neg hlab, if_neg hlab]
        simp [chunkText]

theorem processChunkT_items_nws (p : Txt) (st : SplitState) (b : Txt) :
    nws (((processChunkT p st b).2.map itemText).flatten) = nws (strip b) := by
  simp only [processChunkT]
  repeat' split
  all_goals first
    | exact classifyChunkT_items_nws _ _
    | (dsimp only
       rw [map_itemText_map_chunk, nws_flatten, ← @nws_joinSep_ws ['\n', '\n'] (by decide),
         joinSep_splitOnSub _ _ (by simp)])

theorem processChunkT_dict (p : Txt) (st : SplitState) (b : Txt) :
    ∃ k, (processChunkT p st b).1.dict =
      dictExtend st.dict k ((processChunkT p st b).2.filterMap chunkText) := by
  simp only [processChunkT]
  repeat' split
  all_goals first
    | exact classifyChunkT_dict _ _
    | exact ⟨_, by dsimp only; rw [filterMap_chunkText_map_chunk]⟩

theorem dictChunks_extend (d : ParsedDict) (k : Key) (vs : List Txt) :
    List.Perm (dictChunks (dictExtend d k vs)) (dictChunks d ++ vs) := by
  induction d with
  | nil =>
    simp [dictExtend, dictChunks]
  | cons hd tl ih =>
    by_cases h : hd.1 = k
    · rcases hd with ⟨k0, l0⟩
      simp only [dictExtend, if_pos h, dictChunks, List.map_cons, List.flatten_cons]
      rw [List.append_assoc, List.append_assoc]
      exact List.Perm.append_left l0 (List.perm_append_comm)
    · rcases hd with ⟨k0, l0⟩
      simp only [dictExtend, if_neg h, dictChunks, List.map_cons, List.flatten_cons]
      rw [List.append_assoc]
      exact List.Perm.append_left l0 ih

end RQ

namespace RQ

/-! ## Fold-level reconstruction lemmas and claim C1 -/

theorem foldT_factor (p : Txt) :
    ∀ (blocks : List Txt) (st : SplitState) (tr : List TItem),
      blocks.foldl (stepT p) (st, tr) =
        ((blocks.foldl (stepT p) (st, [])).1,
          tr ++ (blocks.foldl (stepT p) (st, [])).2) := by
  intro blocks
  induction blocks with
  | nil => intro st tr; simp
  | cons b bs ih =>
    intro st tr
    rw [List.foldl_cons, List.foldl_cons]
    have h1 : stepT p (st, tr) b =
        ((processChunkT p st b).1, tr ++ (processChunkT p st b).2) := rfl
    have h2 : stepT p (st, []) b =
        ((processChunkT p st b).1, (processChunkT p st b).2) := by
      simp [stepT]
    rw [h1, h2, ih ((processChunkT p st b).1) (tr ++ (processChunkT p st b).2),
      ih ((processChunkT p st b).1) ((processChunkT p st b).2)]
    simp [List.append_assoc]

theorem foldT_fst (p : Txt) :
    ∀ (blocks : List Txt) (st : SplitState) (tr : List TItem),
      (blocks.foldl (stepT p) (st, tr)).1 = blocks.foldl (processChunk p) st := by
  intro blocks
  induction blocks with
  | nil => intro st tr; rfl
  | cons b bs ih =>
    intro st tr
    rw [List.foldl_cons, List.foldl_cons]
    have h1 : stepT p (st, tr) b =
        ((processChunkT p st b).1, tr ++ (processChunkT p st b).2) := rfl
    rw [h1, ih, processChunkT_fst]

theorem foldT_nws (p : Txt) :
    ∀ (blocks : List Txt) (st : SplitState),
      nws (((blocks.foldl (stepT p) (st, [])).2.map itemText).flatten) =
        (blocks.map (fun b => nws (strip b))).flatten := by
  intro blocks
  induction blocks with
  | nil => intro st; simp [nws]
  | cons b bs ih =>
    intro st
    rw [List.foldl_cons]
    have h2 : stepT p (st, []) b =
        ((processChunkT p st b).1, (processChunkT p st b).2) := by
      simp [stepT]
    rw [h2, foldT_factor p bs ((processChunkT p st b).1) ((processChunkT p st b).2)]
    dsimp only
    rw [List.map_append, List.flatten_append, nws_append, processChunkT_items_nws,
      ih ((processChunkT p st b).1)]
    simp

theorem foldT_dict_perm (p : Txt) :
    ∀ (blocks : List Txt) (st : SplitState),
      List.Perm (dictChunks (blocks.foldl (stepT p) (st, [])).1.dict)
        (dictChunks st.dict ++ ((blocks.foldl (stepT p) (st, [])).2.filterMap chunkText)) := by
  intro blocks
  induction blocks with
  | nil => intro st; simp
  | cons b bs ih =>
    intro st
    rw [List.foldl_cons]
    have h2 : stepT p (st, []) b =
        ((processChunkT p st b).1, (processChunkT p st b).2) := by
      simp [stepT]
    rw [h2, foldT_factor p bs ((processChunkT p st b).1) ((processChunkT p st b).2)]
    obtain ⟨k, hk⟩ := processChunkT_dict p st b
    have hstep : List.Perm (dictChunks (processChunkT p st b).1.dict)
        (dictChunks st.dict ++ ((processChunkT p st b).2.filterMap chunkText)) := by
      rw [hk]
      exact dictChunks_extend _ _ _
    have hih := ih ((processChunkT p st b).1)
    dsimp only
    rw [List.filterMap_append, ← List.append_assoc]
    exact hih.trans (List.Perm.append_right _ hstep)

/-- C1, counterexample.  The claim says joining all section chunks back
together reproduces the raw text modulo whitespace normalization.  It does
not: a speaker label is consumed as the dictionary key and its text never
reaches any chunk.  In this well-formed script the (non-whitespace) letter
`'J'` of the speaker label `"JAMES"` occurs in the raw text but in no stored
chunk of any section. -/
theorem reconstruction_loses_speaker_labels :
    ('J' ∈ nws "Pod – X\n\n\n\nContent Warnings\n\n\n\n[a]\n\n\n\nJAMES\n\nDamn.".toList) ∧
    ¬('J' ∈ (dictChunks (splitScript
        "Pod – X\n\n\n\nContent Warnings\n\n\n\n[a]\n\n\n\nJAMES\n\nDamn.".toList)).flatten) := by
  constructor
  · decide
  · decide

/-- C1, amended.  Segmentation conserves the raw text except for speaker
labels: re-inserting the consumed speaker-label segments into the stored
chunks at their document positions (the instrumented trace) reproduces, after
discarding whitespace, exactly the raw text's character sequence in order (no
loss, no duplication); and the chunks stored across the sections of the
resulting `ParsedScript` are exactly (as a multiset) the chunks the trace
emits, each chunk landing in exactly one section. -/
theorem segmentation_conserves_text_modulo_labels (raw : Txt) :
    (splitScriptT raw).1.dict = splitScript raw ∧
    nws (((splitScriptT raw).2.map itemText).flatten) = nws raw ∧
    List.Perm (dictChunks (splitScript raw)) ((splitScriptT raw).2.filterMap chunkText) := by
  have hfst : (splitScriptT raw).1.dict = splitScript raw := by
    simp only [splitScriptT, splitScript]
    rw [foldT_fst]
  refine ⟨hfst, ?_, ?_⟩
  · simp only [splitScriptT]
    rw [foldT_nws]
    have hraw : nws raw = ((splitOnSub "\n\n\n\n".toList raw).map nws).flatten := by
      conv_lhs => rw [← joinSep_splitOnSub "\n\n\n\n".toList raw (by decide)]
      exact nws_joinSep_ws (by decide) _
    rw [hraw]
    have hf : (fun b : Txt => nws (strip b)) = fun b : Txt => nws b := funext nws_strip
    rw [hf]
  · rw [← hfst]
    simp only [splitScriptT]
    have h := foldT_dict_perm (podcastName raw) (splitOnSub "\n\n\n\n".toList raw) initState
    have hinit : dictChunks initState.dict = [] := rfl
    rw [hinit] at h
    simpa using h

end RQ
